import Mathlib

/-!
Shallow embedding of `zns-metadata.py` (meltiso/zNS-metadata).

The script's stages are embedded as pure Lean functions over explicit data:

* `get_all_domains`            — the cursor-paginated bulk collector;
* `check_for_duplicated_entries` — the duplicate-name scan;
* `format_ipfs_hash_in_dicts`  — the `ipfs://` stripping / partitioning pass;
* `get_metadata` / `get_all_metadata` — the per-record gateway fetch and the
  batch run (the external `aiometer.run_all` scheduler is modelled both as an
  aggregate `Except` result and as an explicit completion-order schedule);
* `flatten`                    — the recursive dictionary flattener
  (`flattenDict` / `flattenValue` / `flattenList`);
* `separate_industries_group`  — the per-group regex selection of
  `separate_industries_into_files`;
* `sorted_attrs` / `transform_attributes` — the attribute pre-pass of `main`.

Python dictionaries are modelled as insertion-ordered association lists;
`dupd` is `d[k] = v` (overwrite in place, else append) and `dmerge` is
`d.update(d2)`.
-/

/-- A JSON-like value, as handled dynamically by the Python script. -/
inductive JVal : Type where
  | str : String → JVal
  | num : Int → JVal
  | bool : Bool → JVal
  | null : JVal
  | obj : List (String × JVal) → JVal
  | arr : List JVal → JVal

/-- Python `d[k] = v` on an insertion-ordered dict modelled as an assoc list:
overwrite in place when the key exists, otherwise append at the end. -/
def dupd (d : List (String × JVal)) (k : String) (v : JVal) :
    List (String × JVal) :=
  if d.any (fun p => p.1 = k) then
    d.map (fun p => if p.1 = k then (k, v) else p)
  else d ++ [(k, v)]

/-- Python `d.update(d2)`: insert `d2`'s entries into `d` in order. -/
def dmerge (d d2 : List (String × JVal)) : List (String × JVal) :=
  d2.foldl (fun acc p => dupd acc p.1 p.2) d

/-- `isinstance(value, dict) and value` — value is a non-empty mapping. -/
def isNonEmptyObj : JVal → Bool
  | .obj (_ :: _) => true
  | _ => false

mutual

/-- `flatten(input_dict, separator, prefix)` from the script, with the
accumulating `output_dict` made explicit (it starts empty at each call site
in the script; fields are processed in order). -/
def flattenDict (sep pre : String) (acc : List (String × JVal)) :
    List (String × JVal) → List (String × JVal)
  | [] => acc
  | (key, value) :: rest =>
      flattenDict sep pre (flattenValue sep pre acc key value) rest
termination_by l => sizeOf l
decreasing_by all_goals simp_wf <;> omega

/-- The body of `flatten`'s per-field `if/elif/else`:
non-empty dict recurses with `prefix+key+separator`; non-empty list is walked
with a 1-based index; anything else is emitted as `output_dict[prefix+key]`. -/
def flattenValue (sep pre : String) (acc : List (String × JVal))
    (key : String) : JVal → List (String × JVal)
  | .obj (f :: fs) =>
      dmerge acc (flattenDict sep (pre ++ key ++ sep) [] (f :: fs))
  | .arr (e :: es) =>
      flattenList sep pre acc key (.arr (e :: es)) 1 (e :: es)
  | v => dupd acc (pre ++ key) v
termination_by v => sizeOf v
decreasing_by all_goals simp_wf <;> omega

/-- `for index, sublist in enumerate(value, start=1)`: a non-empty dict
element recurses with `prefix+key+separator+str(index)+separator`; any other
element assigns the WHOLE original list `orig` under
`prefix+key+separator+str(index)`. -/
def flattenList (sep pre : String) (acc : List (String × JVal))
    (key : String) (orig : JVal) (idx : Nat) :
    List JVal → List (String × JVal)
  | [] => acc
  | .obj (f :: fs) :: es =>
      flattenList sep pre
        (dmerge acc
          (flattenDict sep (pre ++ key ++ sep ++ Nat.repr idx ++ sep) []
            (f :: fs)))
        key orig (idx + 1) es
  | e :: es =>
      flattenList sep pre (dupd acc (pre ++ key ++ sep ++ Nat.repr idx) orig)
        key orig (idx + 1) es
termination_by es => sizeOf es
decreasing_by all_goals simp_wf <;> omega

end

/-- A zNS domain record as returned by the subgraph query: the dict
`{id, indexId, name, metadata}` where `metadata` is still the IPFS path
string. -/
structure DomainRec where
  id : String
  indexId : Nat
  name : String
  metadata : String
  deriving DecidableEq, Repr

/-- A domain record after `get_metadata`: the `metadata` field now holds the
fetched JSON document. -/
structure ResolvedRec where
  id : String
  indexId : Nat
  name : String
  metadata : JVal

/-! ## PaginatedCollector: `get_all_domains` -/

/-- Largest `indexId` present in the mock source (used as the termination
measure of the collection loop). -/
def maxIndexId (all : List DomainRec) : Nat :=
  all.foldr (fun r m => max r.indexId m) 0

theorem indexId_le_maxIndexId {all : List DomainRec} {r : DomainRec}
    (h : r ∈ all) : r.indexId ≤ maxIndexId all := by
  induction all with
  | nil => cases h
  | cons a l ih =>
      have hm : maxIndexId (a :: l) = max a.indexId (maxIndexId l) := rfl
      rw [hm]
      rcases List.mem_cons.mp h with h | h
      · subst h; exact le_max_left _ _
      · exact le_trans (ih h) (le_max_right _ _)

/-- One page of the mock paginated source:
`domains(first: 1000, where: (indexId_gt: lastId), orderBy: indexId asc)`.
The source `all` is the full record list in ascending `indexId` order. -/
def sourcePage (all : List DomainRec) (lastId : Nat) : List DomainRec :=
  (all.filter (fun r => lastId < r.indexId)).take 1000

/-- The `while True` loop of `get_all_domains`: fetch the page for the
current cursor; stop on an empty page, else accumulate it and advance the
cursor by `lastId = lastId + 1000` (exactly as the script does — NOT to the
last-seen `indexId`). Each page request is modelled as succeeding (status
200), which is what the claims about a mock source assume. -/
def get_all_domains_loop (all : List DomainRec) (lastId : Nat) :
    List DomainRec :=
  if h : sourcePage all lastId = [] then []
  else sourcePage all lastId ++ get_all_domains_loop all (lastId + 1000)
termination_by maxIndexId all + 1 - lastId
decreasing_by
  have hex : ∃ r, r ∈ sourcePage all lastId := by
    cases hp : sourcePage all lastId with
    | nil => exact absurd hp h
    | cons a t => exact ⟨a, by simp [hp]⟩
  obtain ⟨r, hr⟩ := hex
  have hmem : r ∈ all.filter (fun r => lastId < r.indexId) :=
    List.mem_of_mem_take hr
  have h1 : lastId < r.indexId := by
    have := (List.mem_filter.mp hmem).2
    simpa using this
  have h2 : r.indexId ≤ maxIndexId all :=
    indexId_le_maxIndexId (List.mem_of_mem_filter hmem)
  simp_wf
  omega

/-- `get_all_domains(maxId)` over a mock source `all`; `maxId` only drives
the progress bar in the script, so it does not affect the result. -/
def get_all_domains (all : List DomainRec) (_maxId : Nat) : List DomainRec :=
  get_all_domains_loop all 0

/-! ## IntegrityValidator: `check_for_duplicated_entries` -/

/-- The `for name in names` loop: `seen` is the growing set, and every name
already in `seen` is appended to the output. -/
def dupAux (seen : List String) : List String → List String
  | [] => []
  | n :: rest =>
      if n ∈ seen then n :: dupAux seen rest
      else dupAux (n :: seen) rest

/-- `check_for_duplicated_entries(data)`. -/
def check_for_duplicated_entries (data : List DomainRec) : List String :=
  dupAux [] (data.map (fun z => z.name))

/-! ## IdentifierNormalizer: `format_ipfs_hash_in_dicts` -/

/-- The literal pattern `re.escape('ipfs://')`. -/
def ipfsPat : List Char := "ipfs://".toList

/-- `re.sub('ipfs://', '', s)` on the character list: scan left to right,
deleting each non-overlapping occurrence of the pattern. -/
def stripIpfsAux : List Char → List Char
  | [] => []
  | c :: cs =>
      if ipfsPat.isPrefixOf (c :: cs) then
        stripIpfsAux ((c :: cs).drop ipfsPat.length)
      else c :: stripIpfsAux cs
termination_by l => l.length
decreasing_by
  · have hp : ipfsPat.length = 7 := rfl
    simp
    omega
  · simp

/-- `re.sub(pattern, '', entry['metadata'])` for the `ipfs://` pattern. -/
def stripIpfs (s : String) : String := ⟨stripIpfsAux s.toList⟩

/-- Whether `ipfs://` occurs anywhere in the character list. -/
def hasIpfs : List Char → Bool
  | [] => false
  | c :: cs => ipfsPat.isPrefixOf (c :: cs) || hasIpfs cs

/-- `format_ipfs_hash_in_dicts(data)`: for each entry, strip all `ipfs://`
occurrences from `metadata`; when nothing was stripped the (unchanged) entry
is appended to `not_match`, otherwise `entry['metadata']` is overwritten in
place. The function returns `(data, not_match)` — the first component is the
WHOLE input list (the script mutates entries of `data` in place and returns
`data` itself). -/
def format_ipfs_hash_in_dicts : List DomainRec →
    List DomainRec × List DomainRec
  | [] => ([], [])
  | e :: rest =>
      let hash := stripIpfs e.metadata
      let r := format_ipfs_hash_in_dicts rest
      if hash = e.metadata then (e :: r.1, e :: r.2)
      else ({ e with metadata := hash } :: r.1, r.2)

/-! ## FetchPipeline: `get_metadata` / `get_all_metadata` -/

/-- What the Infura gateway can do with one request: fail at the transport
level, or answer with some HTTP status and a body that either decodes as
JSON (`some doc`) or does not (`none`). -/
inductive GatewayResult : Type where
  | netErr : GatewayResult
  | resp : Nat → Option JVal → GatewayResult

/-- The two exceptions a single `get_metadata` call can raise:
a transport error from `session.post`, or a `response.json()` decode
failure. -/
inductive FetchErr : Type where
  | network : FetchErr
  | decode : FetchErr
  deriving DecidableEq

/-- `get_metadata(session, data)`: POST the entry's `metadata` hash to the
gateway, decode the response body as JSON, and overwrite `data['metadata']`
with the decoded document. The script never inspects
`response.status_code` here — only `session.post` itself and
`response.json()` can raise. -/
def get_metadata (fetch : String → GatewayResult) (e : DomainRec) :
    Except FetchErr ResolvedRec :=
  match fetch e.metadata with
  | .netErr => .error .network
  | .resp _status none => .error .decode
  | .resp _status (some doc) => .ok ⟨e.id, e.indexId, e.name, doc⟩

/-- `True` (as a `Bool`) when `get_metadata` would raise on this gateway
answer. -/
def raisesB : GatewayResult → Bool
  | .netErr => true
  | .resp _ none => true
  | .resp _ (some _) => false

/-- `get_all_metadata(data, maxId)`, aggregate view: `aiometer.run_all`
either re-raises the first exception of any task (aborting the whole batch
with no result list) or returns every task's result. The tasks are
`partial(get_metadata, session, entry)` for `entry in data`, and `run_all`
returns their results in the order of the input list. -/
def get_all_metadata (fetch : String → GatewayResult) :
    List DomainRec → Except FetchErr (List ResolvedRec)
  | [] => .ok []
  | e :: rest =>
      match get_metadata fetch e with
      | .error err => .error err
      | .ok r =>
          match get_all_metadata fetch rest with
          | .error err => .error err
          | .ok rs => .ok (r :: rs)

/-- `aiometer.run_all`, scheduled view (modelling the library's documented
contract that results come back in task order): tasks may COMPLETE in any
order — `order` lists the task indices in completion order — and each
completion writes its task's result into the slot of the task's input
position. The returned sequence is the slots in input order. -/
def run_all_scheduled {α β : Type} (tasks : List α) (f : α → β)
    (order : List Nat) : List (Option β) :=
  order.foldl (fun slots i => slots.set i (tasks[i]?.map f))
    (List.replicate tasks.length none)

/-- `get_all_metadata`, ordering view: the batch of `get_metadata` tasks run
under an arbitrary completion order. -/
def get_all_metadata_sched (fetch : String → GatewayResult)
    (data : List DomainRec) (order : List Nat) :
    List (Option (Except FetchErr ResolvedRec)) :=
  run_all_scheduled data (get_metadata fetch) order

/-! ## GroupPartitioner: `separate_industries_into_files` -/

/-- `'.' :: seg` is a valid tail for the regex `\.[^.]+$`: a dot followed by
one or more non-dot characters running to the end of the string. -/
def segOk (seg : List Char) : Bool :=
  !seg.isEmpty && !seg.contains '.'

/-- `re.search(re.escape(domain_group) + '\.[^.]+$', name)`: somewhere in
`name` there is an occurrence of the literal `domain_group` followed by a
dot and a non-empty dot-free run of characters reaching the end of the
string. (`$` is modelled as end-of-string.) -/
def matchesGroup (g name : List Char) : Bool :=
  (List.range (name.length + 1)).any (fun i =>
    (g ++ ['.']).isPrefixOf (name.drop i) &&
      segOk ((name.drop i).drop (g.length + 1)))

/-- One record of a per-industry output file:
`{'tokenId': entry['id'], 'domain': entry['name'],
  'metadata': entry['metadata']}`. -/
structure GroupEntry where
  tokenId : String
  domain : String
  metadata : JVal

/-- The per-group body of `separate_industries_into_files`: the records of
`data` whose `name` the pattern matches, reshaped to
`{tokenId, domain, metadata}`, in input order. -/
def separate_industries_group (data : List ResolvedRec)
    (domain_group : String) : List GroupEntry :=
  (data.filter (fun e => matchesGroup domain_group.toList e.name.toList)).map
    (fun e => ⟨e.id, e.name, e.metadata⟩)

/-! ## The attribute pre-pass of `main` -/

/-- One attribute dict `{'trait_type': ..., 'value': ...}`. -/
structure AttrPair where
  trait_type : String
  value : JVal

/-- `sorted(attributes, key=lambda d: d['trait_type'])` (a stable sort by
trait name; `insertionSort` is stable). -/
def sorted_attrs (attributes : List AttrPair) : List AttrPair :=
  attributes.insertionSort (fun a b => a.trait_type ≤ b.trait_type)

/-- `[{z['trait_type']: z['value']} for z in sorted(...)]`: collapse each
sorted pair into a single-entry dict. -/
def transform_attributes (attributes : List AttrPair) : List JVal :=
  (sorted_attrs attributes).map (fun z => JVal.obj [(z.trait_type, z.value)])

/-! ## Lemmas about the `ipfs://` stripper -/

theorem stripIpfsAux_length_le (l : List Char) :
    (stripIpfsAux l).length ≤ l.length := by
  induction l using stripIpfsAux.induct with
  | case1 => simp [stripIpfsAux]
  | case2 c cs hpre ih =>
      rw [stripIpfsAux, if_pos hpre]
      have hd : (List.drop ipfsPat.length (c :: cs)).length =
          (c :: cs).length - ipfsPat.length := List.length_drop _ _
      have hp : ipfsPat.length = 7 := rfl
      simp only [List.length_cons] at *
      omega
  | case3 c cs hpre ih =>
      rw [stripIpfsAux, if_neg hpre]
      simpa using ih

theorem stripIpfsAux_eq_self_iff (l : List Char) :
    (stripIpfsAux l = l) ↔ hasIpfs l = false := by
  induction l using stripIpfsAux.induct with
  | case1 => simp [stripIpfsAux, hasIpfs]
  | case2 c cs hpre ih =>
      rw [stripIpfsAux, if_pos hpre]
      constructor
      · intro he
        exfalso
        have h1 := stripIpfsAux_length_le (List.drop ipfsPat.length (c :: cs))
        have hd : (List.drop ipfsPat.length (c :: cs)).length =
            (c :: cs).length - ipfsPat.length := List.length_drop _ _
        have hp : ipfsPat.length = 7 := rfl
        have hlen := congrArg List.length he
        simp only [List.length_cons] at *
        omega
      · intro hf
        exfalso
        simp [hasIpfs, hpre] at hf
  | case3 c cs hpre ih =>
      rw [stripIpfsAux, if_neg hpre]
      simp only [hasIpfs, hpre, Bool.false_or]
      constructor
      · intro he
        exact ih.mp (List.cons_injective.eq_iff.mp he)
      · intro hf
        simp [ih.mpr hf]

theorem stripIpfs_eq_self_iff (s : String) :
    (stripIpfs s = s) ↔ hasIpfs s.toList = false := by
  cases s with
  | mk data =>
      have : stripIpfs ⟨data⟩ = ⟨stripIpfsAux data⟩ := rfl
      rw [this]
      constructor
      · intro h
        exact (stripIpfsAux_eq_self_iff data).mp (congrArg String.toList h)
      · intro h
        have := (stripIpfsAux_eq_self_iff data).mpr h
        simpa using congrArg String.mk this


theorem format_ipfs_fst (data : List DomainRec) :
    (format_ipfs_hash_in_dicts data).1 =
      data.map (fun e => { e with metadata := stripIpfs e.metadata }) := by
  induction data with
  | nil => rfl
  | cons e rest ih =>
      by_cases h : stripIpfs e.metadata = e.metadata
      · simp [format_ipfs_hash_in_dicts, h, ih]
      · simp [format_ipfs_hash_in_dicts, h, ih]

theorem format_ipfs_snd (data : List DomainRec) :
    (format_ipfs_hash_in_dicts data).2 =
      data.filter (fun e => !hasIpfs e.metadata.toList) := by
  induction data with
  | nil => rfl
  | cons e rest ih =>
      by_cases h : stripIpfs e.metadata = e.metadata
      · have hb' : hasIpfs e.metadata.toList = false :=
          (stripIpfs_eq_self_iff _).mp h
        rw [List.filter_cons_of_pos (by simpa using hb')]
        simp [format_ipfs_hash_in_dicts, h, ih]
      · have hb' : hasIpfs e.metadata.toList = true := by
          by_contra hf
          exact h ((stripIpfs_eq_self_iff _).mpr (by simpa using hf))
        rw [List.filter_cons_of_neg (by simpa using hb')]
        simp [format_ipfs_hash_in_dicts, h, ih]

/-! ## Claim C10 -/

/-- C10: `format_ipfs_hash_in_dicts` removes every (non-overlapping, scanned
left to right) occurrence of `ipfs://` anywhere in the pointer, not only a
leading scheme prefix, and it classifies a record as unresolvable exactly
when the pointer contains no occurrence of `ipfs://` at all: the `not_match`
output is precisely the records without an occurrence, and a pointer such as
`xipfs://QmABC` is treated as resolvable and becomes `xQmABC`. -/
theorem C10_strip_anywhere :
    (∀ data : List DomainRec,
      (format_ipfs_hash_in_dicts data).2 =
        data.filter (fun e => !hasIpfs e.metadata.toList))
    ∧ format_ipfs_hash_in_dicts [⟨"0x1", 1, "wilder.x", "xipfs://QmABC"⟩] =
        ([⟨"0x1", 1, "wilder.x", "xQmABC"⟩], [])
    ∧ stripIpfs "ipfs://Qmipfs://X" = "QmX" := by
  refine ⟨format_ipfs_snd, ?_, ?_⟩
  · simp [format_ipfs_hash_in_dicts, stripIpfs, stripIpfsAux,
      List.isPrefixOf, ipfsPat]
  · simp [stripIpfs, stripIpfsAux, List.isPrefixOf, ipfsPat]

/-! ## Claim C5 -/

/-- C5 counterexample: a record whose pointer does not carry the `ipfs://`
prefix is NOT routed only to the no-metadata set — it stays (unchanged) in
the first returned list as well, the list `main` passes on to the fetch
stage.  The two output sets are therefore neither disjoint nor a partition. -/
theorem C5_counterexample :
    format_ipfs_hash_in_dicts [⟨"0x1", 1, "wilder.x", "QmNoPrefix"⟩] =
      ([⟨"0x1", 1, "wilder.x", "QmNoPrefix"⟩],
       [⟨"0x1", 1, "wilder.x", "QmNoPrefix"⟩]) := by
  simp [format_ipfs_hash_in_dicts, stripIpfs, stripIpfsAux,
    List.isPrefixOf, ipfsPat]

/-- C5 (amended): the first output of `format_ipfs_hash_in_dicts` is the
ENTIRE input list — records with an `ipfs://` occurrence get their pointer
stripped, the rest stay unchanged — and the second output is exactly the
records without an occurrence; every record of the no-metadata set therefore
also appears in the set that proceeds to the fetch stage (the outputs are
not disjoint, and unresolvable records are not excluded from fetching). -/
theorem C5_partition_amended :
    ∀ data : List DomainRec,
      ((format_ipfs_hash_in_dicts data).1 =
        data.map (fun e => { e with metadata := stripIpfs e.metadata }))
      ∧ ((format_ipfs_hash_in_dicts data).2 =
        data.filter (fun e => !hasIpfs e.metadata.toList))
      ∧ ∀ e ∈ (format_ipfs_hash_in_dicts data).2,
          e ∈ (format_ipfs_hash_in_dicts data).1 := by
  intro data
  refine ⟨format_ipfs_fst data, format_ipfs_snd data, ?_⟩
  intro e he
  rw [format_ipfs_snd] at he
  have hmem : e ∈ data := List.mem_of_mem_filter he
  have hb : hasIpfs e.metadata.toList = false := by
    have := (List.mem_filter.mp he).2
    simpa using this
  have hself : stripIpfs e.metadata = e.metadata :=
    (stripIpfs_eq_self_iff _).mpr hb
  rw [format_ipfs_fst]
  refine List.mem_map.mpr ⟨e, hmem, ?_⟩
  rw [hself]

/-- C5 witness: the amended theorem on a concrete batch whose only record is
unresolvable — that record still reaches the list passed to the fetch
stage. -/
theorem C5_partition_amended_witness :
    (⟨"0x1", 1, "wilder.x", "QmNoPrefix"⟩ : DomainRec) ∈
      (format_ipfs_hash_in_dicts [⟨"0x1", 1, "wilder.x", "QmNoPrefix"⟩]).1 :=
  (C5_partition_amended [⟨"0x1", 1, "wilder.x", "QmNoPrefix"⟩]).2.2
    ⟨"0x1", 1, "wilder.x", "QmNoPrefix"⟩
    (by rw [(C5_partition_amended [⟨"0x1", 1, "wilder.x", "QmNoPrefix"⟩]).2.1]
        simp [stripIpfs, stripIpfsAux, List.isPrefixOf, ipfsPat, hasIpfs])

/-! ## Claim C4 -/

theorem dupAux_count (s : String) :
    ∀ (l seen : List String),
      (dupAux seen l).count s =
        (if s ∈ seen then l.count s else l.count s - 1) := by
  intro l
  induction l with
  | nil => intro seen; simp [dupAux]
  | cons n rest ih =>
      intro seen
      by_cases hn : n ∈ seen
      · rw [dupAux, if_pos hn]
        by_cases hs : s = n
        · subst hs
          rw [if_pos hn]
          rw [List.count_cons_self, List.count_cons_self, ih, if_pos hn]
        · rw [List.count_cons_of_ne hs, List.count_cons_of_ne hs, ih]
      · rw [dupAux, if_neg hn]
        by_cases hs : s = n
        · subst hs
          rw [if_neg hn, ih, if_pos (List.mem_cons_self s seen),
            List.count_cons_self]
          omega
        · rw [List.count_cons_of_ne hs, ih]
          have hmem : (s ∈ n :: seen) ↔ s ∈ seen := by
            constructor
            · intro h
              rcases List.mem_cons.mp h with h | h
              · exact absurd h hs
              · exact h
            · exact fun h => List.mem_cons_of_mem n h
          simp only [hmem]

/-- C4 counterexample: a name occurring three times is listed twice (once per
extra sighting), not exactly once as the claim states. -/
theorem C4_counterexample :
    check_for_duplicated_entries
      [⟨"0x1", 1, "wilder.a", "m1"⟩, ⟨"0x2", 2, "wilder.a", "m2"⟩,
       ⟨"0x3", 3, "wilder.a", "m3"⟩] = ["wilder.a", "wilder.a"]
    ∧ ["wilder.a", "wilder.a"] ≠ ["wilder.a"] := by
  constructor
  · rfl
  · decide

/-- C4 (amended): `check_for_duplicated_entries` returns the empty list
exactly when all `name` values are distinct; in general a name occurring
`k` times appears `k - 1` times in the output — so the SET of listed names
is exactly the set of repeated names, but a name occurring three or more
times is listed more than once. -/
theorem C4_duplicates_amended :
    ∀ data : List DomainRec,
      (check_for_duplicated_entries data = [] ↔
        (data.map (fun z => z.name)).Nodup)
      ∧ ∀ s : String,
          (check_for_duplicated_entries data).count s =
            (data.map (fun z => z.name)).count s - 1 := by
  intro data
  have hcount : ∀ s : String,
      (check_for_duplicated_entries data).count s =
        (data.map (fun z => z.name)).count s - 1 := by
    intro s
    rw [check_for_duplicated_entries, dupAux_count]
    simp
  refine ⟨?_, hcount⟩
  constructor
  · intro h
    rw [List.nodup_iff_count_le_one]
    intro s
    have := hcount s
    rw [h] at this
    simp at this
    omega
  · intro h
    rw [List.eq_nil_iff_forall_not_mem]
    intro s hs
    have hpos : 0 < (check_for_duplicated_entries data).count s :=
      List.count_pos_iff_mem.mpr hs
    have hle : (data.map (fun z => z.name)).count s ≤ 1 :=
      List.nodup_iff_count_le_one.mp h s
    have := hcount s
    omega

/-! ## Claim C2 -/

/-- C2 counterexample: a gateway answer with status 500 whose body is
JSON-decodable does NOT abort the batch — `get_metadata` never inspects the
status code, so the error body is substituted into the record's `metadata`
field and the batch succeeds. -/
theorem C2_counterexample :
    get_all_metadata (fun _ => .resp 500 (some (.str "gateway error body")))
      [⟨"0x1", 1, "wilder.a", "QmA"⟩] =
    .ok [⟨"0x1", 1, "wilder.a", .str "gateway error body"⟩] := rfl

/-- C2 (amended): the batch aborts — with no partial result — exactly when
some fetch RAISES, i.e. fails at the transport level or has a body that is
not JSON-decodable; and whenever the batch succeeds it contains the result
of every record's own fetch at the record's own position.  A non-2xx
response with a JSON-decodable body does not raise and is substituted like a
success (see `C2_counterexample`). -/
theorem C2_failure_policy_amended :
    ∀ (fetch : String → GatewayResult) (data : List DomainRec),
      ((∃ err, get_all_metadata fetch data = .error err) ↔
        ∃ e ∈ data, raisesB (fetch e.metadata) = true)
      ∧ ∀ rs, get_all_metadata fetch data = .ok rs →
          rs.length = data.length
          ∧ ∀ i (h1 : i < data.length) (h2 : i < rs.length),
              get_metadata fetch data[i] = .ok rs[i] := by
  intro fetch data
  induction data with
  | nil =>
      refine ⟨⟨fun ⟨err, h⟩ => by simp [get_all_metadata] at h,
        fun ⟨e, he, _⟩ => absurd he (List.not_mem_nil e)⟩, ?_⟩
      intro rs hrs
      simp [get_all_metadata] at hrs
      subst hrs
      exact ⟨rfl, fun i h1 _ => absurd h1 (Nat.not_lt_zero i)⟩
  | cons e rest ih =>
      have hrB : raisesB (fetch e.metadata) = true ↔
          ∃ err, get_metadata fetch e = .error err := by
        cases hf : fetch e.metadata with
        | netErr => simp [get_metadata, raisesB, hf]
        | resp status body => cases body <;> simp [get_metadata, raisesB, hf]
      constructor
      · constructor
        · intro ⟨err, h⟩
          rw [get_all_metadata] at h
          cases hm : get_metadata fetch e with
          | error err' =>
              exact ⟨e, List.mem_cons_self e rest, hrB.mpr ⟨err', hm⟩⟩
          | ok r =>
              rw [hm] at h
              cases hrest : get_all_metadata fetch rest with
              | error err'' =>
                  obtain ⟨e', he', hB⟩ := ih.1.mp ⟨err'', hrest⟩
                  exact ⟨e', List.mem_cons_of_mem e he', hB⟩
              | ok rs => rw [hrest] at h; exact absurd h (by simp)
        · intro ⟨e', he', hB⟩
          rw [get_all_metadata]
          rcases List.mem_cons.mp he' with he' | he'
          · subst he'
            obtain ⟨err, herr⟩ := hrB.mp hB
            rw [herr]
            exact ⟨err, rfl⟩
          · cases hm : get_metadata fetch e with
            | error err => exact ⟨err, rfl⟩
            | ok r =>
                obtain ⟨err, herr⟩ := ih.1.mpr ⟨e', he', hB⟩
                rw [herr]
                exact ⟨err, rfl⟩
      · intro rs hrs
        rw [get_all_metadata] at hrs
        cases hm : get_metadata fetch e with
        | error err => rw [hm] at hrs; exact absurd hrs (by simp)
        | ok r =>
            rw [hm] at hrs
            cases hrest : get_all_metadata fetch rest with
            | error err => rw [hrest] at hrs; exact absurd hrs (by simp)
            | ok rs' =>
                rw [hrest] at hrs
                have hrs' : rs = r :: rs' := by
                  cases hrs
                  rfl
                subst hrs'
                obtain ⟨hlen, helem⟩ := ih.2 rs' hrest
                refine ⟨by simp [hlen], ?_⟩
                intro i hi1 hi2
                cases i with
                | zero => simpa using hm
                | succ j =>
                    have hj1 : j < rest.length := by simpa using hi1
                    have hj2 : j < rs'.length := by simpa using hi2
                    simpa using helem j hj1 hj2

/-- C2 witness: on a concrete batch, a transport error aborts the whole
batch, and an all-2xx batch succeeds in full. -/
theorem C2_failure_policy_amended_witness :
    (∃ err, get_all_metadata (fun _ => .netErr)
        [⟨"0x1", 1, "wilder.a", "QmA"⟩] = .error err)
    ∧ ∀ rs, get_all_metadata (fun _ => .resp 200 (some .null))
          [⟨"0x1", 1, "wilder.a", "QmA"⟩] = .ok rs →
        rs.length = 1 := by
  constructor
  · exact (C2_failure_policy_amended (fun _ => .netErr)
      [⟨"0x1", 1, "wilder.a", "QmA"⟩]).1.mpr
      ⟨⟨"0x1", 1, "wilder.a", "QmA"⟩, by simp, rfl⟩
  · intro rs hrs
    exact ((C2_failure_policy_amended (fun _ => .resp 200 (some .null))
      [⟨"0x1", 1, "wilder.a", "QmA"⟩]).2 rs hrs).1

/-! ## Claim C3 -/

/-- C3, the code's behaviour at a failing input: the loop advances the
cursor by `lastId = lastId + 1000` instead of to the last-seen `indexId`,
so on a mock source of two records with the sparse monotonic indexIds
`1` and `5000`, the record with indexId `5000` is returned by five
successive pages — `get_all_domains` yields 6 records instead of 2, with
the `5000` record duplicated (its `name` duplicated too, which the very
next stage of `main` rejects as a fatal duplicate-entry error). -/
theorem C3_cursor_bug :
    get_all_domains
      [⟨"0xa", 1, "wilder.a", "ma"⟩, ⟨"0xb", 5000, "wilder.b", "mb"⟩] 2 =
      [⟨"0xa", 1, "wilder.a", "ma"⟩, ⟨"0xb", 5000, "wilder.b", "mb"⟩,
       ⟨"0xb", 5000, "wilder.b", "mb"⟩, ⟨"0xb", 5000, "wilder.b", "mb"⟩,
       ⟨"0xb", 5000, "wilder.b", "mb"⟩, ⟨"0xb", 5000, "wilder.b", "mb"⟩]
    ∧ ¬ (get_all_domains
        [⟨"0xa", 1, "wilder.a", "ma"⟩, ⟨"0xb", 5000, "wilder.b", "mb"⟩]
        2).Nodup := by
  have h : get_all_domains
      [⟨"0xa", 1, "wilder.a", "ma"⟩, ⟨"0xb", 5000, "wilder.b", "mb"⟩] 2 =
      [⟨"0xa", 1, "wilder.a", "ma"⟩, ⟨"0xb", 5000, "wilder.b", "mb"⟩,
       ⟨"0xb", 5000, "wilder.b", "mb"⟩, ⟨"0xb", 5000, "wilder.b", "mb"⟩,
       ⟨"0xb", 5000, "wilder.b", "mb"⟩, ⟨"0xb", 5000, "wilder.b", "mb"⟩] := by
    rw [get_all_domains]
    simp [get_all_domains_loop, sourcePage]
  refine ⟨h, ?_⟩
  rw [h]
  decide

/-! ## Claim C7 -/

theorem matchesGroup_iff (g name : List Char) :
    matchesGroup g name = true ↔
      ∃ s seg : List Char, name = s ++ g ++ '.' :: seg ∧ seg ≠ [] ∧
        '.' ∉ seg := by
  rw [matchesGroup, List.any_eq_true]
  constructor
  · rintro ⟨i, hi, hp⟩
    rw [Bool.and_eq_true] at hp
    obtain ⟨hpre, hseg⟩ := hp
    obtain ⟨u, hu⟩ := List.isPrefixOf_iff_prefix.mp hpre
    have hdropu : (name.drop i).drop (g.length + 1) = u := by
      rw [← hu]
      have : (g ++ ['.']).length = g.length + 1 := by simp
      rw [← this, List.drop_left]
    refine ⟨name.take i, u, ?_, ?_, ?_⟩
    · nth_rewrite 1 [← List.take_append_drop i name]
      rw [← hu]
      simp
    · have := hseg
      rw [hdropu] at this
      simp [segOk] at this
      intro hnil
      rw [hnil] at this
      simp at this
    · have := hseg
      rw [hdropu] at this
      simp [segOk] at this
      exact this.2
  · rintro ⟨s, seg, hname, hnil, hdot⟩
    refine ⟨s.length, ?_, ?_⟩
    · rw [List.mem_range]
      rw [hname]
      simp
      omega
    · have hdrop : name.drop s.length = g ++ '.' :: seg := by
        rw [hname, List.append_assoc, List.drop_left]
      rw [Bool.and_eq_true]
      constructor
      · rw [hdrop]
        apply List.isPrefixOf_iff_prefix.mpr
        exact ⟨seg, by simp⟩
      · have : (name.drop s.length).drop (g.length + 1) = seg := by
          rw [hdrop]
          have h2 : g ++ '.' :: seg = (g ++ ['.']) ++ seg := by simp
          have h3 : (g ++ ['.']).length = g.length + 1 := by simp
          rw [h2, ← h3, List.drop_left]
        rw [this]
        simp [segOk]
        exact ⟨hnil, hdot⟩

/-- C7 counterexample: the pattern `re.escape(group) + '\\.[^.]+$'` is
anchored at the END of the name only, and the script uses `re.search`; a
record whose `name` merely ENDS with `group + '.' + segment` — here
`xwilder.wheels.genesis.1`, which does not even start with the group prefix
and is no child of it — is still selected for the group. -/
theorem C7_counterexample :
    separate_industries_group
      [⟨"0x1", 1, "xwilder.wheels.genesis.1", JVal.null⟩]
      "wilder.wheels.genesis" =
      [⟨"0x1", "xwilder.wheels.genesis.1", JVal.null⟩]
    ∧ List.isPrefixOf "wilder.wheels.genesis.".toList
        "xwilder.wheels.genesis.1".toList = false :=
  ⟨rfl, rfl⟩

/-- C7 (amended): `separate_industries_into_files` selects a record for a
group exactly when the record's `name` ENDS WITH the group prefix followed
by `'.'` and one non-empty dot-free segment — the regex is anchored at the
end of the name but not at its start.  Direct children are selected, the
prefix node itself and deeper descendants are not, but so is any record
whose name merely ends with such a suffix. -/
theorem C7_group_suffix_amended :
    (∀ (g name : List Char), matchesGroup g name = true ↔
      ∃ s seg : List Char, name = s ++ g ++ '.' :: seg ∧ seg ≠ [] ∧
        '.' ∉ seg)
    ∧ ∀ (data : List ResolvedRec) (g : String) (ge : GroupEntry),
        ge ∈ separate_industries_group data g ↔
          ∃ e ∈ data, matchesGroup g.toList e.name.toList = true ∧
            ge = ⟨e.id, e.name, e.metadata⟩ := by
  refine ⟨matchesGroup_iff, ?_⟩
  intro data g ge
  rw [separate_industries_group, List.mem_map]
  constructor
  · rintro ⟨e, he, hge⟩
    have hmem : e ∈ data := List.mem_of_mem_filter he
    have hmatch := (List.mem_filter.mp he).2
    exact ⟨e, hmem, by simpa using hmatch, hge.symm⟩
  · rintro ⟨e, he, hmatch, hge⟩
    exact ⟨e, List.mem_filter.mpr ⟨he, by simpa using hmatch⟩, hge.symm⟩

/-! ## Claim C1 -/

theorem foldl_set_getElem? {β : Type} (g : Nat → Option β) (order : List Nat) :
    ∀ (slots : List (Option β)) (j : Nat),
      (order.foldl (fun s i => s.set i (g i)) slots)[j]? =
        if j ∈ order ∧ j < slots.length then some (g j) else slots[j]? := by
  induction order with
  | nil =>
      intro slots j
      simp
  | cons i rest ih =>
      intro slots j
      rw [List.foldl_cons, ih]
      rw [List.length_set]
      by_cases hm : j ∈ rest
      · by_cases hl : j < slots.length
        · rw [if_pos ⟨hm, hl⟩, if_pos ⟨List.mem_cons_of_mem i hm, hl⟩]
        · rw [if_neg (fun hh => hl hh.2), if_neg (fun hh => hl hh.2)]
          rw [List.getElem?_set]
          by_cases hij : i = j
          · subst hij
            rw [if_pos rfl, if_neg hl]
            exact (List.getElem?_eq_none (Nat.le_of_not_lt hl)).symm
          · rw [if_neg hij]
      · rw [if_neg (fun hh => hm hh.1)]
        rw [List.getElem?_set]
        by_cases hij : i = j
        · subst hij
          by_cases hl : i < slots.length
          · rw [if_pos rfl, if_pos hl,
              if_pos ⟨List.mem_cons_self i rest, hl⟩]
          · rw [if_pos rfl, if_neg hl, if_neg (fun hh => hl hh.2)]
            exact (List.getElem?_eq_none (Nat.le_of_not_lt hl)).symm
        · rw [if_neg hij, if_neg ?_]
          rintro ⟨hmem, hlt⟩
          rcases List.mem_cons.mp hmem with h | h
          · exact hij h.symm
          · exact hm h

theorem run_all_scheduled_eq {α β : Type} (tasks : List α) (f : α → β)
    (order : List Nat) (h : order.Perm (List.range tasks.length)) :
    run_all_scheduled tasks f order =
      tasks.map (fun t => some (f t)) := by
  apply List.ext_getElem?
  intro j
  rw [run_all_scheduled, foldl_set_getElem?]
  rw [List.length_replicate]
  have hmem : j ∈ order ↔ j < tasks.length := by
    rw [h.mem_iff, List.mem_range]
  by_cases hj : j < tasks.length
  · rw [if_pos ⟨hmem.mpr hj, hj⟩]
    rw [List.getElem?_map, List.getElem?_eq_getElem hj]
    simp
  · rw [if_neg (fun hh => hj hh.2)]
    rw [List.getElem?_replicate, if_neg hj]
    rw [List.getElem?_map, List.getElem?_eq_none (Nat.le_of_not_lt hj)]
    rfl

/-- C1: for every input list and every fetch-completion order (any
permutation of the task indices), the output sequence of the batch fetch is
in input order — slot `i` of the result is task `i`'s own result, i.e. the
`i`-th input record processed by `get_metadata`; and a record whose fetch
resolves a document gets exactly that document substituted into its
`metadata` field.  So even when later records complete before earlier ones,
the output is the input sequence with each `metadata` pointer replaced by
its own resolved document. -/
theorem C1_order_preserved :
    ∀ (fetch : String → GatewayResult) (data : List DomainRec)
      (order : List Nat), order.Perm (List.range data.length) →
      get_all_metadata_sched fetch data order =
        data.map (fun e => some (get_metadata fetch e))
      ∧ ∀ (e : DomainRec) (status : Nat) (doc : JVal),
          fetch e.metadata = .resp status (some doc) →
          get_metadata fetch e = .ok ⟨e.id, e.indexId, e.name, doc⟩ := by
  intro fetch data order h
  refine ⟨run_all_scheduled_eq data (get_metadata fetch) order h, ?_⟩
  intro e status doc hf
  simp [get_metadata, hf]

/-- C1 witness: a concrete batch `[A, B, C]` fetched under the completion
order "C finishes first, then A, then B" still yields `[A', B', C']` in the
original input order. -/
theorem C1_order_preserved_witness :
    get_all_metadata_sched (fun s => .resp 200 (some (.str s)))
      [⟨"0x1", 1, "wilder.a", "QmA"⟩, ⟨"0x2", 2, "wilder.b", "QmB"⟩,
       ⟨"0x3", 3, "wilder.c", "QmC"⟩]
      [2, 0, 1] =
      [some (.ok ⟨"0x1", 1, "wilder.a", .str "QmA"⟩),
       some (.ok ⟨"0x2", 2, "wilder.b", .str "QmB"⟩),
       some (.ok ⟨"0x3", 3, "wilder.c", .str "QmC"⟩)] := by
  have h := (C1_order_preserved (fun s => .resp 200 (some (.str s)))
    [⟨"0x1", 1, "wilder.a", "QmA"⟩, ⟨"0x2", 2, "wilder.b", "QmB"⟩,
     ⟨"0x3", 3, "wilder.c", "QmC"⟩]
    [2, 0, 1] (by decide)).1
  rw [h]
  rfl

/-! ## Claim C6 -/

theorem dupd_snd_const {d : List (String × JVal)} {w : JVal}
    (h : ∀ p ∈ d, p.2 = w) (k : String) :
    ∀ p ∈ dupd d k w, p.2 = w := by
  intro p hp
  rw [dupd] at hp
  split at hp
  · rcases List.mem_map.mp hp with ⟨q, hq, hpq⟩
    by_cases hqk : q.1 = k
    · rw [if_pos hqk] at hpq
      rw [← hpq]
    · rw [if_neg hqk] at hpq
      rw [← hpq]
      exact h q hq
  · rcases List.mem_append.mp hp with hp | hp
    · exact h p hp
    · have : p = (k, w) := by simpa using hp
      rw [this]

theorem mem_keys_dupd_self (d : List (String × JVal)) (k : String)
    (v : JVal) : k ∈ (dupd d k v).map Prod.fst := by
  rw [dupd]
  split
  · rename_i hany
    obtain ⟨q, hq, hqk⟩ := List.any_eq_true.mp hany
    refine List.mem_map.mpr ⟨(k, v), ?_, rfl⟩
    refine List.mem_map.mpr ⟨q, hq, ?_⟩
    rw [if_pos (by simpa using hqk)]
  · simp

theorem mem_keys_dupd_mono {d : List (String × JVal)} {k' : String}
    (h : k' ∈ d.map Prod.fst) (k : String) (v : JVal) :
    k' ∈ (dupd d k v).map Prod.fst := by
  obtain ⟨q, hq, hqk⟩ := List.mem_map.mp h
  rw [dupd]
  split
  · by_cases hqis : q.1 = k
    · refine List.mem_map.mpr ⟨(k, v), List.mem_map.mpr ⟨q, hq, ?_⟩, ?_⟩
      · rw [if_pos hqis]
      · rw [← hqk, hqis]
    · refine List.mem_map.mpr ⟨q, List.mem_map.mpr ⟨q, hq, ?_⟩, hqk⟩
      rw [if_neg hqis]
  · exact List.mem_map.mpr ⟨q, List.mem_append_left _ hq, hqk⟩

theorem foldl_dupd_const_snd (w : JVal) (keyOf : Nat → String) :
    ∀ (is : List Nat) (acc : List (String × JVal)),
      (∀ p ∈ acc, p.2 = w) →
      ∀ p ∈ is.foldl (fun a i => dupd a (keyOf i) w) acc, p.2 = w := by
  intro is
  induction is with
  | nil => intro acc hacc; simpa using hacc
  | cons i rest ih =>
      intro acc hacc
      rw [List.foldl_cons]
      exact ih _ (dupd_snd_const hacc (keyOf i))

theorem foldl_dupd_keys_mono (w : JVal) (keyOf : Nat → String) :
    ∀ (is : List Nat) (acc : List (String × JVal)) (k' : String),
      k' ∈ acc.map Prod.fst →
      k' ∈ ((is.foldl (fun a i => dupd a (keyOf i) w) acc).map Prod.fst) := by
  intro is
  induction is with
  | nil => intro acc k' h; simpa using h
  | cons i rest ih =>
      intro acc k' h
      rw [List.foldl_cons]
      exact ih _ _ (mem_keys_dupd_mono h (keyOf i) w)

theorem foldl_dupd_mem_keys (w : JVal) (keyOf : Nat → String) :
    ∀ (is : List Nat) (acc : List (String × JVal)) (i : Nat), i ∈ is →
      keyOf i ∈ ((is.foldl (fun a j => dupd a (keyOf j) w) acc).map
        Prod.fst) := by
  intro is
  induction is with
  | nil => intro acc i h; cases h
  | cons j rest ih =>
      intro acc i h
      rw [List.foldl_cons]
      rcases List.mem_cons.mp h with h | h
      · subst h
        exact foldl_dupd_keys_mono w keyOf rest _ _
          (mem_keys_dupd_self acc (keyOf i) w)
      · exact ih _ i h

theorem lookup_eq_of_const_snd {d : List (String × JVal)} {w : JVal}
    (h : ∀ p ∈ d, p.2 = w) {k : String} (hk : k ∈ d.map Prod.fst) :
    d.lookup k = some w := by
  induction d with
  | nil => simp at hk
  | cons p rest ih =>
      obtain ⟨k1, v1⟩ := p
      rw [List.lookup]
      by_cases hkp : k = k1
      · have hbeq : (k == k1) = true := by simpa using hkp
        rw [hbeq]
        have := h (k1, v1) (List.mem_cons_self _ _)
        simpa using this
      · have hbeq : (k == k1) = false := by simpa using hkp
        rw [hbeq]
        refine ih (fun q hq => h q (List.mem_cons_of_mem _ hq)) ?_
        rcases List.mem_map.mp hk with ⟨q, hq, hqk⟩
        rcases List.mem_cons.mp hq with hq | hq
        · exfalso; apply hkp; rw [← hqk, hq]
        · exact List.mem_map.mpr ⟨q, hq, hqk⟩

theorem flattenList_cons_nonobj {e : JVal} (sep pre : String)
    (acc : List (String × JVal)) (key : String) (orig : JVal) (idx : Nat)
    (es : List JVal) (hne : isNonEmptyObj e = false) :
    flattenList sep pre acc key orig idx (e :: es) =
      flattenList sep pre (dupd acc (pre ++ key ++ sep ++ Nat.repr idx) orig)
        key orig (idx + 1) es := by
  cases e with
  | str s => rw [flattenList] <;> intro f fs habs <;> cases habs
  | num n => rw [flattenList] <;> intro f fs habs <;> cases habs
  | bool b => rw [flattenList] <;> intro f fs habs <;> cases habs
  | null => rw [flattenList] <;> intro f fs habs <;> cases habs
  | obj fs =>
      cases fs with
      | nil => rw [flattenList] <;> intro f fs habs <;> cases habs
      | cons f fs' => simp [isNonEmptyObj] at hne
  | arr l => rw [flattenList] <;> intro f fs habs <;> cases habs

theorem flattenList_all_nonobj (sep pre key : String) (orig : JVal) :
    ∀ (es : List JVal), (∀ v ∈ es, isNonEmptyObj v = false) →
      ∀ (idx : Nat) (acc : List (String × JVal)),
        flattenList sep pre acc key orig idx es =
          (List.range' idx es.length).foldl
            (fun a i => dupd a (pre ++ key ++ sep ++ Nat.repr i) orig) acc := by
  intro es
  induction es with
  | nil =>
      intro _ idx acc
      rw [flattenList]
      rfl
  | cons e rest ih =>
      intro h idx acc
      rw [flattenList_cons_nonobj sep pre acc key orig idx rest
        (h e (List.mem_cons_self e rest))]
      rw [ih (fun v hv => h v (List.mem_cons_of_mem e hv))]
      rw [List.length_cons, List.range'_succ, List.foldl_cons]

/-- C6: in `flatten`, a non-empty sequence value is walked with a 1-based
index: an element that is itself a non-empty mapping recurses with the index
appended to the prefix (shown on the spec's example, whose output keys are
`c.1.d` and `c.2.f`), while every non-mapping element is emitted under the
key `prefix+key+separator+index` with the WHOLE original sequence — not the
element — as the assigned value: in a sequence containing no non-empty
mapping, every produced entry carries the original sequence as its value,
and each index key from 1 to the length maps to that whole sequence. -/
theorem C6_flatten_sequences :
    (flattenDict "." "" []
        [("a", .str "b"),
         ("c", .arr [.obj [("d", .str "e")], .obj [("f", .str "g")]])] =
      [("a", .str "b"), ("c.1.d", .str "e"), ("c.2.f", .str "g")])
    ∧ ∀ (sep pre key : String) (vs : List JVal), vs ≠ [] →
        (∀ v ∈ vs, isNonEmptyObj v = false) →
        (∀ p ∈ flattenDict sep pre [] [(key, .arr vs)], p.2 = .arr vs)
        ∧ ∀ i, 1 ≤ i → i ≤ vs.length →
            (flattenDict sep pre [] [(key, .arr vs)]).lookup
              (pre ++ key ++ sep ++ Nat.repr i) = some (.arr vs) := by
  constructor
  · simp [flattenDict, flattenValue, flattenList, dmerge, dupd]
    rfl
  · intro sep pre key vs hne hno
    obtain ⟨v, vs', rfl⟩ : ∃ v vs', vs = v :: vs' := by
      cases vs with
      | nil => exact absurd rfl hne
      | cons v vs' => exact ⟨v, vs', rfl⟩
    have hunf : flattenDict sep pre [] [(key, .arr (v :: vs'))] =
        flattenList sep pre [] key (.arr (v :: vs')) 1 (v :: vs') := by
      rw [flattenDict, flattenValue, flattenDict]
    rw [hunf, flattenList_all_nonobj sep pre key (.arr (v :: vs'))
      (v :: vs') hno 1 []]
    constructor
    · exact foldl_dupd_const_snd (.arr (v :: vs')) _ _ [] (by simp)
    · intro i h1 h2
      apply lookup_eq_of_const_snd
      · exact foldl_dupd_const_snd (.arr (v :: vs')) _ _ [] (by simp)
      · apply foldl_dupd_mem_keys (.arr (v :: vs'))
          (fun i => pre ++ key ++ sep ++ Nat.repr i)
        rw [List.mem_range'_1]
        refine ⟨h1, ?_⟩
        have := h2
        simp only [List.length_cons] at this ⊢
        omega

/-- C6 witness: a two-element sequence of non-mapping values, flattened: the
key for index 2 maps to the whole original sequence. -/
theorem C6_flatten_sequences_witness :
    (∀ p ∈ flattenDict "." "" []
        [("k", JVal.arr [JVal.str "x", JVal.null])],
      p.2 = JVal.arr [JVal.str "x", JVal.null])
    ∧ (flattenDict "." "" []
        [("k", JVal.arr [JVal.str "x", JVal.null])]).lookup
          ("" ++ "k" ++ "." ++ Nat.repr 2) =
        some (JVal.arr [JVal.str "x", JVal.null]) := by
  have h := C6_flatten_sequences.2 "." "" "k" [JVal.str "x", JVal.null]
    (by simp) (by decide)
  exact ⟨h.1, h.2 2 (by norm_num) (by norm_num)⟩

/-! ## Claim C8 -/

instance attrLe_total :
    IsTotal AttrPair (fun a b => a.trait_type ≤ b.trait_type) :=
  ⟨fun a b => le_total a.trait_type b.trait_type⟩

instance attrLe_trans :
    IsTrans AttrPair (fun a b => a.trait_type ≤ b.trait_type) :=
  ⟨fun _ _ _ h1 h2 => le_trans h1 h2⟩

/-- C8: the pre-pass of `main` sorts the attribute pairs by trait name
ascending and collapses each pair into a single-entry mapping, so the
flattened keys are in alphabetical trait order: on the spec's example the
flattening of the pre-passed `attributes` field yields exactly the keys
`attributes.1.Alpha` (value 2) and `attributes.2.Zeta` (value 1), in that
order. -/
theorem C8_attribute_prepass :
    (∀ ats : List AttrPair,
      ((sorted_attrs ats).map (fun z => z.trait_type)).Sorted (· ≤ ·))
    ∧ flattenDict "." "" []
        [("attributes",
          .arr (transform_attributes
            [⟨"Zeta", .num 1⟩, ⟨"Alpha", .num 2⟩]))] =
      [("attributes.1.Alpha", .num 2), ("attributes.2.Zeta", .num 1)] := by
  constructor
  · intro ats
    have hs : (sorted_attrs ats).Sorted
        (fun a b => a.trait_type ≤ b.trait_type) :=
      List.sorted_insertionSort _ ats
    exact List.Pairwise.map _ (fun a b hab => hab) hs
  · have hZA : ¬ (("Zeta" : String) ≤ "Alpha") := by simp; decide
    have ht : transform_attributes [⟨"Zeta", .num 1⟩, ⟨"Alpha", .num 2⟩] =
        [.obj [("Alpha", .num 2)], .obj [("Zeta", .num 1)]] := by
      simp [transform_attributes, sorted_attrs, List.insertionSort,
        List.orderedInsert, hZA]
    rw [ht]
    simp [flattenDict, flattenValue, flattenList, dmerge, dupd]
    rfl
